import Mathlib

/-!
Verification of the staleable cache wrapper (`cache/staleable.go`).

This file shallowly embeds the stale-while-revalidate wrapper of the
`gocache` repository and proves properties of its TTL arithmetic,
staleness classification, reload procedure and coalescing behaviour.

Durations (`time.Duration`) are modelled as `Int` (nanoseconds); the
claims never exercise 64-bit overflow.  Go errors are modelled by an
inductive type with a distinguished `notFound` constructor, mirroring
the `*store.NotFound` type assertion in `Get`.  The Go zero value
`*new(T)` is modelled by `Inhabited.default`.
-/

/-- Go `error` values as seen by the wrapper: the distinguished
`store.NotFound` error, or any other error (tagged by a code). -/
inductive GoErr
  | notFound
  | other (code : Nat)
  deriving DecidableEq, Repr

/-- The cancellation context a load runs under: the triggering caller's
context, or `context.Background()` (the independent scope used by the
background refresh goroutine in `Get`). -/
inductive Ctx
  | caller
  | background
  deriving DecidableEq, Repr

/-- Observable actions performed against shared state during a reload:
the call to the load function, a `Set` on the underlying store
(recording the expiration the store receives), and the removal of the
key's record from the coalescing map (`inprogressMap.Delete`). -/
inductive CacheEv (K T : Type)
  | load (res : T) (err : Option GoErr)
  | setU (key : K) (value : T) (exp : Int)
  | unregister (key : K)

/-- The staleable cache wrapper (`StaleableCache[T]` in `staleable.go`)
together with its collaborators.  The underlying store is modelled by
two oracles: `underGet` gives the result of the underlying
`GetWithTTL` (value, remaining physical TTL, error — the wrapper
discards value and TTL when the error is non-nil), and `underSetErr`
gives the error the underlying `Set` returns for a (key, value,
expiration) triple. -/
structure StaleableCache (K T : Type) where
  underGet : K → T × Int × Option GoErr
  underSetErr : K → T → Int → Option GoErr
  /-- Field `minimumTTL`: the max-stale margin added to every stored expiry. -/
  minimumTTL : Int
  /-- Field `refreshTTL`: the default expiration used by `Set` when none is given. -/
  refreshTTL : Int
  loadFunc : Option (Ctx → K → T × Option GoErr)
  shouldCache : Option (K → T → Bool)

namespace StaleableCache

variable {K T : Type} [Inhabited T]

/-- Method `GetWithTTL` (staleable.go:136-145): delegate to the underlying
store; on error return the zero value, duration 0 and the error; on
success subtract `minimumTTL` from the stored remaining TTL. -/
def GetWithTTL (s : StaleableCache K T) (key : K) : T × Int × Option GoErr :=
  let r := s.underGet key
  match r.2.2 with
  | some e => (default, 0, some e)
  | none => (r.1, r.2.1 - s.minimumTTL, none)

/-- Method `Set` (staleable.go:148-160): resolve the caller-supplied expiration
option (0 when absent), fall back to `refreshTTL` when it is 0, and
forward `minimumTTL + expiration` to the underlying store.  Returns the
underlying store's error together with the (key, value, expiration)
triple the underlying store received. -/
def Set (s : StaleableCache K T) (key : K) (value : T) (optExp : Option Int) :
    Option GoErr × K × T × Int :=
  let expiration : Int :=
    match optExp with
    | some e => e
    | none => 0
  let expiration := if expiration = 0 then s.refreshTTL else expiration
  let forwarded := s.minimumTTL + expiration
  (s.underSetErr key value forwarded, key, value, forwarded)

/-- Method `loadAndStore` (staleable.go:117-132): with no load function, return
the zero value and nil error; otherwise run the load function, propagate
its failure without storing, skip the store when the admission predicate
rejects the value, and otherwise `Set` through the wrapper, discarding
the store-write error.  Returns the (value, error) result together with
the list of events performed, in order. -/
def loadAndStore (s : StaleableCache K T) (ctx : Ctx) (key : K) :
    (T × Option GoErr) × List (CacheEv K T) :=
  match s.loadFunc with
  | none => ((default, none), [])
  | some f =>
    let r := f ctx key
    if r.2.isSome then
      ((r.1, r.2), [CacheEv.load r.1 r.2])
    else
      match s.shouldCache with
      | some p =>
        if p key r.1 then
          let w := s.Set key r.1 none
          ((r.1, r.2), [CacheEv.load r.1 r.2, CacheEv.setU w.2.1 w.2.2.1 w.2.2.2])
        else
          ((r.1, r.2), [CacheEv.load r.1 r.2])
      | none =>
        let w := s.Set key r.1 none
        ((r.1, r.2), [CacheEv.load r.1 r.2, CacheEv.setU w.2.1 w.2.2.1 w.2.2.2])

/-- The observable effect of one leader pass through `Get`
(staleable.go:73-108): the (value, error) pair published to the caller
and every coalesced waiter, whether a synchronous reload ran, the events
the leader performed before releasing the waiters, and the detached
background task (context it runs under and its ordered events), when one
is spawned. -/
structure GetRun (K T : Type) where
  result : T × Option GoErr
  didSyncReload : Bool
  syncEvents : List (CacheEv K T)
  bgTask : Option (Ctx × List (CacheEv K T))

/-- Method `Get` (staleable.go:82-107), leader path: read through `GetWithTTL`;
on the distinguished not-found error reload synchronously; on any other
error publish (zero value, error); when the logical TTL is below
`-minimumTTL` reload synchronously; when it is negative but within the
margin publish the cached value and spawn a detached refresh under
`context.Background()` that deletes the coalescing record only after it
completes; otherwise publish the fresh value. -/
def Get (s : StaleableCache K T) (ctx : Ctx) (key : K) : GetRun K T :=
  let g := s.GetWithTTL key
  let object := g.1
  let ttl := g.2.1
  match g.2.2 with
  | some e =>
    if e = GoErr.notFound then
      let r := s.loadAndStore ctx key
      { result := r.1, didSyncReload := true,
        syncEvents := r.2 ++ [CacheEv.unregister key], bgTask := none }
    else
      { result := (object, some e), didSyncReload := false,
        syncEvents := [CacheEv.unregister key], bgTask := none }
  | none =>
    if ttl + s.minimumTTL < 0 then
      let r := s.loadAndStore ctx key
      { result := r.1, didSyncReload := true,
        syncEvents := r.2 ++ [CacheEv.unregister key], bgTask := none }
    else if ttl < 0 then
      { result := (object, none), didSyncReload := false, syncEvents := [],
        bgTask := some (Ctx.background,
          (s.loadAndStore Ctx.background key).2 ++ [CacheEv.unregister key]) }
    else
      { result := (object, none), didSyncReload := false,
        syncEvents := [CacheEv.unregister key], bgTask := none }

/-- Number of underlying-store `Set` invocations in an event list. -/
def setUCount {K T : Type} : List (CacheEv K T) → Nat
  | [] => 0
  | CacheEv.setU _ _ _ :: rest => 1 + setUCount rest
  | _ :: rest => setUCount rest

end StaleableCache

/-- A concrete staleable cache over `Int` keys and `Nat` values used to
evaluate the theorems: key `0` is absent (`store.NotFound`), any other
key `k` holds value `42` with stored remaining TTL `k`; margin 5,
default expiration 3, loader returning `(99, nil)`. -/
def witCache : StaleableCache Int Nat where
  underGet := fun k => if k = 0 then (0, 0, some GoErr.notFound) else (42, k, none)
  underSetErr := fun _ _ _ => none
  minimumTTL := 5
  refreshTTL := 3
  loadFunc := some fun _ _ => (99, none)
  shouldCache := none

/-- Variant of `witCache` without a load function. -/
def witCacheNoLoader : StaleableCache Int Nat :=
  { witCache with loadFunc := none }

/-- Variant of `witCache` with a load function that fails. -/
def witCacheFail : StaleableCache Int Nat :=
  { witCache with loadFunc := some fun _ _ => (0, some (GoErr.other 1)) }

/-- Variant of `witCache` with an admission predicate that rejects everything. -/
def witCachePredFalse : StaleableCache Int Nat :=
  { witCache with shouldCache := some fun _ _ => false }

/-- Variant of `witCache` whose admission predicate admits everything. -/
def witCachePredTrue : StaleableCache Int Nat :=
  { witCache with shouldCache := some fun _ _ => true }

/-- Variant of `witCache` whose underlying store fails every write. -/
def witCacheSetErr : StaleableCache Int Nat :=
  { witCache with underSetErr := fun _ _ _ => some (GoErr.other 2) }

/-!
Interleaving model of the coalescing protocol.

`Coalesce` models `Get` (staleable.go:73-108) for a single key under
concurrent callers, in the scenario of the coalescing claim: the key is
initially absent from the underlying store, a load function is
configured that returns `(V, nil)`, no admission predicate is set, and
the default expiration is non-negative so a value written by
`loadAndStore`'s `Set` is always read back as fresh.  Each goroutine is
a program counter walking through the statements of `Get`; the shared
state is the coalescing map (`inprogressMap`, at most one record for the
single key, identified by a generation number), the per-record channel
state (`closed`) and published result (`recRes`), the underlying store
content, and the count of underlying `Set` invocations.
-/

namespace Coalesce

/-- Program counter of one goroutine inside `Get`.  `start` is before
`LoadOrStore`; `waiting g` blocks on record `g`'s channel; `leaderGet g`
is the leader about to call `GetWithTTL`; `loading g` is inside the load
function; `setting g v` is about to `Set` the loaded value `v`;
`deleting g r` is about to remove the record with result `r` captured;
`closing g r` is about to close the record's channel; `done r` has
returned `r`. -/
inductive PC (T : Type)
  | start
  | waiting (g : Nat)
  | leaderGet (g : Nat)
  | loading (g : Nat)
  | setting (g : Nat) (v : T)
  | deleting (g : Nat) (res : T × Option GoErr)
  | closing (g : Nat) (res : T × Option GoErr)
  | done (res : T × Option GoErr)
  deriving DecidableEq

/-- Shared state of `n` goroutines calling `Get` on one key. -/
structure Sys (n : Nat) (T : Type) where
  pcs : Fin n → PC T
  /-- Generation number for the next coalescing record created. -/
  nextGen : Nat
  /-- The coalescing map entry for the key, when present. -/
  table : Option Nat
  /-- Whether record `g`'s lock channel has been closed. -/
  closed : Nat → Bool
  /-- The (value, error) pair stored in record `g`, once published. -/
  recRes : Nat → Option (T × Option GoErr)
  /-- Content of the underlying store for the key (`none` = absent). -/
  storeVal : Option T
  /-- Number of `Set` calls the underlying store has received. -/
  setCount : Nat

/-- Initial state: every goroutine before `LoadOrStore`, empty
coalescing map, key absent from the store. -/
def init (n : Nat) (T : Type) : Sys n T where
  pcs := fun _ => PC.start
  nextGen := 0
  table := none
  closed := fun _ => false
  recRes := fun _ => none
  storeVal := none
  setCount := 0

/-- One interleaving step, parametrised by the value `V` the load
function returns.  Each constructor is one atomic statement of `Get`:
`createRecord`/`joinWait` are the two outcomes of
`inprogressMap.LoadOrStore`; `waitDone` is `<-mEntry.lockChannel`
followed by reading the record; `getMiss`/`getHit` are `GetWithTTL`
returning `store.NotFound` resp. a fresh value; `loadStep` is the load
function returning `(V, nil)`; `setStep` is the underlying `Set` inside
`loadAndStore`; `deleteStep` is `inprogressMap.Delete`; `closeStep` is
`close(mEntry.lockChannel)` publishing the captured result. -/
inductive Step {n : Nat} {T : Type} (V : T) : Sys n T → Sys n T → Prop
  | createRecord (s : Sys n T) (i : Fin n)
      (h1 : s.pcs i = PC.start) (h2 : s.table = none) :
      Step V s { s with pcs := Function.update s.pcs i (PC.leaderGet s.nextGen),
                        table := some s.nextGen, nextGen := s.nextGen + 1 }
  | joinWait (s : Sys n T) (i : Fin n) (g : Nat)
      (h1 : s.pcs i = PC.start) (h2 : s.table = some g) :
      Step V s { s with pcs := Function.update s.pcs i (PC.waiting g) }
  | waitDone (s : Sys n T) (i : Fin n) (g : Nat) (r : T × Option GoErr)
      (h1 : s.pcs i = PC.waiting g) (h2 : s.closed g = true)
      (h3 : s.recRes g = some r) :
      Step V s { s with pcs := Function.update s.pcs i (PC.done r) }
  | getMiss (s : Sys n T) (i : Fin n) (g : Nat)
      (h1 : s.pcs i = PC.leaderGet g) (h2 : s.storeVal = none) :
      Step V s { s with pcs := Function.update s.pcs i (PC.loading g) }
  | getHit (s : Sys n T) (i : Fin n) (g : Nat) (v : T)
      (h1 : s.pcs i = PC.leaderGet g) (h2 : s.storeVal = some v) :
      Step V s { s with pcs := Function.update s.pcs i (PC.deleting g (v, none)) }
  | loadStep (s : Sys n T) (i : Fin n) (g : Nat)
      (h1 : s.pcs i = PC.loading g) :
      Step V s { s with pcs := Function.update s.pcs i (PC.setting g V) }
  | setStep (s : Sys n T) (i : Fin n) (g : Nat) (v : T)
      (h1 : s.pcs i = PC.setting g v) :
      Step V s { s with pcs := Function.update s.pcs i (PC.deleting g (v, none)),
                        storeVal := some v, setCount := s.setCount + 1 }
  | deleteStep (s : Sys n T) (i : Fin n) (g : Nat) (r : T × Option GoErr)
      (h1 : s.pcs i = PC.deleting g r) :
      Step V s { s with pcs := Function.update s.pcs i (PC.closing g r),
                        table := none }
  | closeStep (s : Sys n T) (i : Fin n) (g : Nat) (r : T × Option GoErr)
      (h1 : s.pcs i = PC.closing g r) :
      Step V s { s with pcs := Function.update s.pcs i (PC.done r),
                        closed := Function.update s.closed g true,
                        recRes := Function.update s.recRes g (some r) }

/-- Reachability from the initial state by interleaving steps. -/
def Reachable {n : Nat} {T : Type} (V : T) (s : Sys n T) : Prop :=
  Relation.ReflTransGen (Step V) (init n T) s

/-- A goroutine currently performing a reload: it is inside the load
function or about to write the loaded value to the store. -/
def inFlight {T : Type} : PC T → Prop
  | PC.loading _ => True
  | PC.setting _ _ => True
  | _ => False

/-- A goroutine that is the leader of record `g`, anywhere between
`GetWithTTL` and closing the channel. -/
def isLeaderOf {T : Type} (p : PC T) (g : Nat) : Prop :=
  match p with
  | PC.leaderGet g' => g' = g
  | PC.loading g' => g' = g
  | PC.setting g' _ => g' = g
  | PC.deleting g' _ => g' = g
  | PC.closing g' _ => g' = g
  | _ => False

/-- A goroutine that is the leader of record `g` and has not yet removed
it from the coalescing map. -/
def isActiveOf {T : Type} (p : PC T) (g : Nat) : Prop :=
  match p with
  | PC.leaderGet g' => g' = g
  | PC.loading g' => g' = g
  | PC.setting g' _ => g' = g
  | PC.deleting g' _ => g' = g
  | _ => False

/-- A program counter that mentions record generation `g`. -/
def mentionsGen {T : Type} (p : PC T) (g : Nat) : Prop :=
  p = PC.waiting g ∨ isLeaderOf p g

/-- Inductive invariant of the coalescing protocol. -/
structure Inv {n : Nat} {T : Type} (V : T) (s : Sys n T) : Prop where
  genBound : ∀ i g, mentionsGen (s.pcs i) g → g < s.nextGen
  tableBound : ∀ g, s.table = some g → g < s.nextGen
  leaderUnique : ∀ i j g, isLeaderOf (s.pcs i) g → isLeaderOf (s.pcs j) g → i = j
  activeTable : ∀ i g, isActiveOf (s.pcs i) g → s.table = some g
  storeState : (s.storeVal = none ∧ s.setCount = 0) ∨
    (s.storeVal = some V ∧ s.setCount = 1)
  loadVirgin : ∀ i, inFlight (s.pcs i) → s.storeVal = none
  settingIsV : ∀ i g v, s.pcs i = PC.setting g v → v = V
  postStore : ∀ i g r, (s.pcs i = PC.deleting g r ∨ s.pcs i = PC.closing g r) →
    r = (V, none) ∧ s.storeVal = some V
  doneState : ∀ i r, s.pcs i = PC.done r → r = (V, none) ∧ s.storeVal = some V
  resClosed : ∀ g, s.closed g = true →
    s.recRes g = some (V, none) ∧ s.storeVal = some V

/-- Concrete execution, state 0: two goroutines about to call `Get`. -/
def run0 : Sys 2 Nat := init 2 Nat

/-- State 1: goroutine 0 wins `LoadOrStore` and becomes leader. -/
def run1 : Sys 2 Nat :=
  { run0 with pcs := Function.update run0.pcs 0 (PC.leaderGet run0.nextGen),
              table := some run0.nextGen, nextGen := run0.nextGen + 1 }

/-- State 2: goroutine 1 finds the record and waits on its channel. -/
def run2 : Sys 2 Nat :=
  { run1 with pcs := Function.update run1.pcs 1 (PC.waiting 0) }

/-- State 3: the leader's `GetWithTTL` reports the key absent. -/
def run3 : Sys 2 Nat :=
  { run2 with pcs := Function.update run2.pcs 0 (PC.loading 0) }

/-- State 4: the load function returns `(7, nil)`. -/
def run4 : Sys 2 Nat :=
  { run3 with pcs := Function.update run3.pcs 0 (PC.setting 0 7) }

/-- State 5: the leader writes 7 to the underlying store. -/
def run5 : Sys 2 Nat :=
  { run4 with pcs := Function.update run4.pcs 0 (PC.deleting 0 (7, none)),
              storeVal := some 7, setCount := run4.setCount + 1 }

/-- State 6: the leader removes the record from the coalescing map. -/
def run6 : Sys 2 Nat :=
  { run5 with pcs := Function.update run5.pcs 0 (PC.closing 0 (7, none)),
              table := none }

/-- State 7: the leader closes the channel, publishing `(7, nil)`. -/
def run7 : Sys 2 Nat :=
  { run6 with pcs := Function.update run6.pcs 0 (PC.done (7, none)),
              closed := Function.update run6.closed 0 true,
              recRes := Function.update run6.recRes 0 (some (7, none)) }

/-- State 8: the waiter wakes up and returns the published `(7, nil)`. -/
def run8 : Sys 2 Nat :=
  { run7 with pcs := Function.update run7.pcs 1 (PC.done (7, none)) }

namespace StepInv

variable {n : Nat} {T : Type} {V : T}

/-- The invariant holds initially. -/
theorem inv_init : Inv V (init n T) := by
  refine ⟨?_, ?_, ?_, ?_, ?_, ?_, ?_, ?_, ?_, ?_⟩ <;>
    simp [init, mentionsGen, isLeaderOf, isActiveOf, inFlight]

/-- Preservation across `createRecord`. -/
theorem inv_createRecord (s : Sys n T) (i : Fin n) (hinv : Inv V s)
    (h1 : s.pcs i = PC.start) (h2 : s.table = none) :
    Inv V { s with pcs := Function.update s.pcs i (PC.leaderGet s.nextGen),
                   table := some s.nextGen, nextGen := s.nextGen + 1 } := by
  obtain ⟨gB, tB, lU, aT, sS, lV, sV, pS, dS, rC⟩ := hinv
  refine ⟨?_, ?_, ?_, ?_, ?_, ?_, ?_, ?_, ?_, ?_⟩
  · intro j g hg
    dsimp only at hg ⊢
    by_cases hj : j = i
    · subst hj
      rw [Function.update_same] at hg
      simp [mentionsGen, isLeaderOf] at hg
      omega
    · rw [Function.update_noteq hj] at hg
      have := gB j g hg
      omega
  · intro g hg
    dsimp only at hg ⊢
    simp only [Option.some.injEq] at hg
    omega
  · intro j k g hj hk
    dsimp only at hj hk
    by_cases hji : j = i <;> by_cases hki : k = i
    · subst hji; subst hki; rfl
    · subst hji
      rw [Function.update_same] at hj
      rw [Function.update_noteq hki] at hk
      simp [isLeaderOf] at hj
      subst hj
      have := gB k s.nextGen (Or.inr hk)
      omega
    · subst hki
      rw [Function.update_same] at hk
      rw [Function.update_noteq hji] at hj
      simp [isLeaderOf] at hk
      subst hk
      have := gB j s.nextGen (Or.inr hj)
      omega
    · rw [Function.update_noteq hji] at hj
      rw [Function.update_noteq hki] at hk
      exact lU j k g hj hk
  · intro j g hj
    dsimp only at hj ⊢
    by_cases hji : j = i
    · subst hji
      rw [Function.update_same] at hj
      simp [isActiveOf] at hj
      rw [hj]
    · rw [Function.update_noteq hji] at hj
      have := aT j g hj
      rw [h2] at this
      cases this
  · dsimp only
    exact sS
  · intro j hj
    dsimp only at hj ⊢
    by_cases hji : j = i
    · subst hji
      rw [Function.update_same] at hj
      simp [inFlight] at hj
    · rw [Function.update_noteq hji] at hj
      exact lV j hj
  · intro j g v hj
    dsimp only at hj
    by_cases hji : j = i
    · subst hji
      rw [Function.update_same] at hj
      simp at hj
    · rw [Function.update_noteq hji] at hj
      exact sV j g v hj
  · intro j g r hj
    dsimp only at hj ⊢
    by_cases hji : j = i
    · subst hji
      rw [Function.update_same] at hj
      rcases hj with hj | hj <;> simp at hj
    · rw [Function.update_noteq hji] at hj
      exact pS j g r hj
  · intro j r hj
    dsimp only at hj ⊢
    by_cases hji : j = i
    · subst hji
      rw [Function.update_same] at hj
      simp at hj
    · rw [Function.update_noteq hji] at hj
      exact dS j r hj
  · intro g hg
    dsimp only at hg ⊢
    exact rC g hg

/-- An active leader is a leader. -/
theorem isLeaderOf_of_isActiveOf : ∀ (p : PC T) (g : Nat), isActiveOf p g → isLeaderOf p g
  | PC.leaderGet _, _, h => h
  | PC.loading _, _, h => h
  | PC.setting _ _, _, h => h
  | PC.deleting _ _, _, h => h
  | PC.start, _, h => h.elim
  | PC.waiting _, _, h => h.elim
  | PC.closing _ _, _, h => h.elim
  | PC.done _, _, h => h.elim

/-- A goroutine with a reload in flight is an active leader of some record. -/
theorem exists_active_of_inFlight : ∀ (p : PC T), inFlight p → ∃ g, isActiveOf p g
  | PC.loading g, _ => ⟨g, rfl⟩
  | PC.setting g _, _ => ⟨g, rfl⟩
  | PC.start, h => h.elim
  | PC.waiting _, h => h.elim
  | PC.leaderGet _, h => h.elim
  | PC.deleting _ _, h => h.elim
  | PC.closing _ _, h => h.elim
  | PC.done _, h => h.elim

/-- Under the invariant, at most one goroutine has a reload in flight. -/
theorem inFlight_unique {s : Sys n T} (hinv : Inv V s) (i j : Fin n)
    (hi : inFlight (s.pcs i)) (hj : inFlight (s.pcs j)) : i = j := by
  obtain ⟨gi, hgi⟩ := exists_active_of_inFlight _ hi
  obtain ⟨gj, hgj⟩ := exists_active_of_inFlight _ hj
  have ti := hinv.activeTable i gi hgi
  have tj := hinv.activeTable j gj hgj
  rw [ti] at tj
  simp only [Option.some.injEq] at tj
  subst tj
  exact hinv.leaderUnique i j gi (isLeaderOf_of_isActiveOf _ _ hgi)
    (isLeaderOf_of_isActiveOf _ _ hgj)

/-- Preservation across `joinWait`. -/
theorem inv_joinWait (s : Sys n T) (i : Fin n) (g : Nat) (hinv : Inv V s)
    (h1 : s.pcs i = PC.start) (h2 : s.table = some g) :
    Inv V { s with pcs := Function.update s.pcs i (PC.waiting g) } := by
  obtain ⟨gB, tB, lU, aT, sS, lV, sV, pS, dS, rC⟩ := hinv
  refine ⟨?_, ?_, ?_, ?_, ?_, ?_, ?_, ?_, ?_, ?_⟩
  · intro j g' hg
    dsimp only at hg ⊢
    by_cases hji : j = i
    · subst hji
      rw [Function.update_same] at hg
      simp [mentionsGen, isLeaderOf] at hg
      subst hg
      exact tB g h2
    · rw [Function.update_noteq hji] at hg
      exact gB j g' hg
  · exact tB
  · intro j k g' hj hk
    dsimp only at hj hk
    by_cases hji : j = i
    · subst hji
      rw [Function.update_same] at hj
      simp [isLeaderOf] at hj
    · by_cases hki : k = i
      · subst hki
        rw [Function.update_same] at hk
        simp [isLeaderOf] at hk
      · rw [Function.update_noteq hji] at hj
        rw [Function.update_noteq hki] at hk
        exact lU j k g' hj hk
  · intro j g' hj
    dsimp only at hj ⊢
    by_cases hji : j = i
    · subst hji
      rw [Function.update_same] at hj
      simp [isActiveOf] at hj
    · rw [Function.update_noteq hji] at hj
      exact aT j g' hj
  · exact sS
  · intro j hj
    dsimp only at hj ⊢
    by_cases hji : j = i
    · subst hji
      rw [Function.update_same] at hj
      simp [inFlight] at hj
    · rw [Function.update_noteq hji] at hj
      exact lV j hj
  · intro j g' v hj
    dsimp only at hj
    by_cases hji : j = i
    · subst hji
      rw [Function.update_same] at hj
      simp at hj
    · rw [Function.update_noteq hji] at hj
      exact sV j g' v hj
  · intro j g' r hj
    dsimp only at hj ⊢
    by_cases hji : j = i
    · subst hji
      rw [Function.update_same] at hj
      rcases hj with hj | hj <;> simp at hj
    · rw [Function.update_noteq hji] at hj
      exact pS j g' r hj
  · intro j r hj
    dsimp only at hj ⊢
    by_cases hji : j = i
    · subst hji
      rw [Function.update_same] at hj
      simp at hj
    · rw [Function.update_noteq hji] at hj
      exact dS j r hj
  · exact rC

/-- Preservation across `waitDone`. -/
theorem inv_waitDone (s : Sys n T) (i : Fin n) (g : Nat) (r : T × Option GoErr)
    (hinv : Inv V s) (h1 : s.pcs i = PC.waiting g) (h2 : s.closed g = true)
    (h3 : s.recRes g = some r) :
    Inv V { s with pcs := Function.update s.pcs i (PC.done r) } := by
  obtain ⟨gB, tB, lU, aT, sS, lV, sV, pS, dS, rC⟩ := hinv
  have hres : r = (V, none) := by
    have := (rC g h2).1
    rw [h3] at this
    simp only [Option.some.injEq] at this
    exact this
  refine ⟨?_, ?_, ?_, ?_, ?_, ?_, ?_, ?_, ?_, ?_⟩
  · intro j g' hg
    dsimp only at hg ⊢
    by_cases hji : j = i
    · subst hji
      rw [Function.update_same] at hg
      simp [mentionsGen, isLeaderOf] at hg
    · rw [Function.update_noteq hji] at hg
      exact gB j g' hg
  · exact tB
  · intro j k g' hj hk
    dsimp only at hj hk
    by_cases hji : j = i
    · subst hji
      rw [Function.update_same] at hj
      simp [isLeaderOf] at hj
    · by_cases hki : k = i
      · subst hki
        rw [Function.update_same] at hk
        simp [isLeaderOf] at hk
      · rw [Function.update_noteq hji] at hj
        rw [Function.update_noteq hki] at hk
        exact lU j k g' hj hk
  · intro j g' hj
    dsimp only at hj ⊢
    by_cases hji : j = i
    · subst hji
      rw [Function.update_same] at hj
      simp [isActiveOf] at hj
    · rw [Function.update_noteq hji] at hj
      exact aT j g' hj
  · exact sS
  · intro j hj
    dsimp only at hj ⊢
    by_cases hji : j = i
    · subst hji
      rw [Function.update_same] at hj
      simp [inFlight] at hj
    · rw [Function.update_noteq hji] at hj
      exact lV j hj
  · intro j g' v hj
    dsimp only at hj
    by_cases hji : j = i
    · subst hji
      rw [Function.update_same] at hj
      simp at hj
    · rw [Function.update_noteq hji] at hj
      exact sV j g' v hj
  · intro j g' r' hj
    dsimp only at hj ⊢
    by_cases hji : j = i
    · subst hji
      rw [Function.update_same] at hj
      rcases hj with hj | hj <;> simp at hj
    · rw [Function.update_noteq hji] at hj
      exact pS j g' r' hj
  · intro j r' hj
    dsimp only at hj ⊢
    by_cases hji : j = i
    · subst hji
      rw [Function.update_same] at hj
      simp only [PC.done.injEq] at hj
      subst hj
      exact ⟨hres, (rC g h2).2⟩
    · rw [Function.update_noteq hji] at hj
      exact dS j r' hj
  · exact rC

/-- Preservation across `getMiss`. -/
theorem inv_getMiss (s : Sys n T) (i : Fin n) (g : Nat) (hinv : Inv V s)
    (h1 : s.pcs i = PC.leaderGet g) (h2 : s.storeVal = none) :
    Inv V { s with pcs := Function.update s.pcs i (PC.loading g) } := by
  obtain ⟨gB, tB, lU, aT, sS, lV, sV, pS, dS, rC⟩ := hinv
  refine ⟨?_, ?_, ?_, ?_, ?_, ?_, ?_, ?_, ?_, ?_⟩
  · intro j g2 hg
    dsimp only at hg ⊢
    by_cases hji : j = i
    · rw [hji, Function.update_same] at hg
      simp [mentionsGen, isLeaderOf] at hg
      rw [← hg]
      exact gB i g (Or.inr (by rw [h1]; rfl))
    · rw [Function.update_noteq hji] at hg
      exact gB j g2 hg
  · exact tB
  · intro j k g2 hj hk
    dsimp only at hj hk
    by_cases hji : j = i
    · rw [hji, Function.update_same] at hj
      simp [isLeaderOf] at hj
      by_cases hki : k = i
      · rw [hji, hki]
      · rw [Function.update_noteq hki] at hk
        rw [hji]
        exact lU i k g2 (by rw [h1]; exact hj) hk
    · rw [Function.update_noteq hji] at hj
      by_cases hki : k = i
      · rw [hki, Function.update_same] at hk
        simp [isLeaderOf] at hk
        rw [hki]
        exact lU j i g2 hj (by rw [h1]; exact hk)
      · rw [Function.update_noteq hki] at hk
        exact lU j k g2 hj hk
  · intro j g2 hj
    dsimp only at hj ⊢
    by_cases hji : j = i
    · rw [hji, Function.update_same] at hj
      simp [isActiveOf] at hj
      exact aT i g2 (by rw [h1]; exact hj)
    · rw [Function.update_noteq hji] at hj
      exact aT j g2 hj
  · exact sS
  · intro j hj
    dsimp only at hj ⊢
    exact h2
  · intro j g2 v hj
    dsimp only at hj
    by_cases hji : j = i
    · rw [hji, Function.update_same] at hj
      simp at hj
    · rw [Function.update_noteq hji] at hj
      exact sV j g2 v hj
  · intro j g2 r hj
    dsimp only at hj ⊢
    by_cases hji : j = i
    · rw [hji, Function.update_same] at hj
      rcases hj with hj | hj <;> simp at hj
    · rw [Function.update_noteq hji] at hj
      have := (pS j g2 r hj).2
      rw [h2] at this
      simp at this
  · intro j r hj
    dsimp only at hj ⊢
    by_cases hji : j = i
    · rw [hji, Function.update_same] at hj
      simp at hj
    · rw [Function.update_noteq hji] at hj
      have := (dS j r hj).2
      rw [h2] at this
      simp at this
  · intro g2 hg
    dsimp only at hg ⊢
    have := (rC g2 hg).2
    rw [h2] at this
    simp at this

/-- Preservation across `getHit`. -/
theorem inv_getHit (s : Sys n T) (i : Fin n) (g : Nat) (v : T) (hinv : Inv V s)
    (h1 : s.pcs i = PC.leaderGet g) (h2 : s.storeVal = some v) :
    Inv V { s with pcs := Function.update s.pcs i (PC.deleting g (v, none)) } := by
  obtain ⟨gB, tB, lU, aT, sS, lV, sV, pS, dS, rC⟩ := hinv
  have hv : v = V := by
    rcases sS with ⟨h, _⟩ | ⟨h, _⟩
    · rw [h2] at h
      simp at h
    · rw [h2] at h
      simp only [Option.some.injEq] at h
      exact h
  refine ⟨?_, ?_, ?_, ?_, ?_, ?_, ?_, ?_, ?_, ?_⟩
  · intro j g2 hg
    dsimp only at hg ⊢
    by_cases hji : j = i
    · rw [hji, Function.update_same] at hg
      simp [mentionsGen, isLeaderOf] at hg
      rw [← hg]
      exact gB i g (Or.inr (by rw [h1]; rfl))
    · rw [Function.update_noteq hji] at hg
      exact gB j g2 hg
  · exact tB
  · intro j k g2 hj hk
    dsimp only at hj hk
    by_cases hji : j = i
    · rw [hji, Function.update_same] at hj
      simp [isLeaderOf] at hj
      by_cases hki : k = i
      · rw [hji, hki]
      · rw [Function.update_noteq hki] at hk
        rw [hji]
        exact lU i k g2 (by rw [h1]; exact hj) hk
    · rw [Function.update_noteq hji] at hj
      by_cases hki : k = i
      · rw [hki, Function.update_same] at hk
        simp [isLeaderOf] at hk
        rw [hki]
        exact lU j i g2 hj (by rw [h1]; exact hk)
      · rw [Function.update_noteq hki] at hk
        exact lU j k g2 hj hk
  · intro j g2 hj
    dsimp only at hj ⊢
    by_cases hji : j = i
    · rw [hji, Function.update_same] at hj
      simp [isActiveOf] at hj
      exact aT i g2 (by rw [h1]; exact hj)
    · rw [Function.update_noteq hji] at hj
      exact aT j g2 hj
  · exact sS
  · intro j hj
    dsimp only at hj ⊢
    by_cases hji : j = i
    · rw [hji, Function.update_same] at hj
      simp [inFlight] at hj
    · rw [Function.update_noteq hji] at hj
      have := lV j hj
      rw [h2] at this
      simp at this
  · intro j g2 v' hj
    dsimp only at hj
    by_cases hji : j = i
    · rw [hji, Function.update_same] at hj
      simp at hj
    · rw [Function.update_noteq hji] at hj
      exact sV j g2 v' hj
  · intro j g2 r hj
    dsimp only at hj ⊢
    by_cases hji : j = i
    · rw [hji, Function.update_same] at hj
      rcases hj with hj | hj
      · simp only [PC.deleting.injEq] at hj
        refine ⟨?_, ?_⟩
        · rw [← hj.2, hv]
        · rw [h2, hv]
      · simp at hj
    · rw [Function.update_noteq hji] at hj
      exact pS j g2 r hj
  · intro j r hj
    dsimp only at hj ⊢
    by_cases hji : j = i
    · rw [hji, Function.update_same] at hj
      simp at hj
    · rw [Function.update_noteq hji] at hj
      exact dS j r hj
  · exact rC

/-- Preservation across `loadStep`. -/
theorem inv_loadStep (s : Sys n T) (i : Fin n) (g : Nat) (hinv : Inv V s)
    (h1 : s.pcs i = PC.loading g) :
    Inv V { s with pcs := Function.update s.pcs i (PC.setting g V) } := by
  obtain ⟨gB, tB, lU, aT, sS, lV, sV, pS, dS, rC⟩ := hinv
  refine ⟨?_, ?_, ?_, ?_, ?_, ?_, ?_, ?_, ?_, ?_⟩
  · intro j g2 hg
    dsimp only at hg ⊢
    by_cases hji : j = i
    · rw [hji, Function.update_same] at hg
      simp [mentionsGen, isLeaderOf] at hg
      rw [← hg]
      exact gB i g (Or.inr (by rw [h1]; rfl))
    · rw [Function.update_noteq hji] at hg
      exact gB j g2 hg
  · exact tB
  · intro j k g2 hj hk
    dsimp only at hj hk
    by_cases hji : j = i
    · rw [hji, Function.update_same] at hj
      simp [isLeaderOf] at hj
      by_cases hki : k = i
      · rw [hji, hki]
      · rw [Function.update_noteq hki] at hk
        rw [hji]
        exact lU i k g2 (by rw [h1]; exact hj) hk
    · rw [Function.update_noteq hji] at hj
      by_cases hki : k = i
      · rw [hki, Function.update_same] at hk
        simp [isLeaderOf] at hk
        rw [hki]
        exact lU j i g2 hj (by rw [h1]; exact hk)
      · rw [Function.update_noteq hki] at hk
        exact lU j k g2 hj hk
  · intro j g2 hj
    dsimp only at hj ⊢
    by_cases hji : j = i
    · rw [hji, Function.update_same] at hj
      simp [isActiveOf] at hj
      exact aT i g2 (by rw [h1]; exact hj)
    · rw [Function.update_noteq hji] at hj
      exact aT j g2 hj
  · exact sS
  · intro j hj
    dsimp only at hj ⊢
    exact lV i (by rw [h1]; trivial)
  · intro j g2 v' hj
    dsimp only at hj
    by_cases hji : j = i
    · rw [hji, Function.update_same] at hj
      simp only [PC.setting.injEq] at hj
      exact hj.2.symm
    · rw [Function.update_noteq hji] at hj
      exact sV j g2 v' hj
  · intro j g2 r hj
    dsimp only at hj ⊢
    by_cases hji : j = i
    · rw [hji, Function.update_same] at hj
      rcases hj with hj | hj <;> simp at hj
    · rw [Function.update_noteq hji] at hj
      exact pS j g2 r hj
  · intro j r hj
    dsimp only at hj ⊢
    by_cases hji : j = i
    · rw [hji, Function.update_same] at hj
      simp at hj
    · rw [Function.update_noteq hji] at hj
      exact dS j r hj
  · exact rC


/-- Preservation across `setStep`. -/
theorem inv_setStep (s : Sys n T) (i : Fin n) (g : Nat) (v : T) (hinv : Inv V s)
    (h1 : s.pcs i = PC.setting g v) :
    Inv V { s with pcs := Function.update s.pcs i (PC.deleting g (v, none)),
                   storeVal := some v, setCount := s.setCount + 1 } := by
  obtain ⟨gB, tB, lU, aT, sS, lV, sV, pS, dS, rC⟩ := id hinv
  have hv : v = V := sV i g v h1
  have hnone : s.storeVal = none := lV i (by rw [h1]; trivial)
  refine ⟨?_, ?_, ?_, ?_, ?_, ?_, ?_, ?_, ?_, ?_⟩
  · intro j g2 hg
    dsimp only at hg ⊢
    by_cases hji : j = i
    · rw [hji, Function.update_same] at hg
      simp [mentionsGen, isLeaderOf] at hg
      rw [← hg]
      exact gB i g (Or.inr (by rw [h1]; rfl))
    · rw [Function.update_noteq hji] at hg
      exact gB j g2 hg
  · exact tB
  · intro j k g2 hj hk
    dsimp only at hj hk
    by_cases hji : j = i
    · rw [hji, Function.update_same] at hj
      simp [isLeaderOf] at hj
      by_cases hki : k = i
      · rw [hji, hki]
      · rw [Function.update_noteq hki] at hk
        rw [hji]
        exact lU i k g2 (by rw [h1]; exact hj) hk
    · rw [Function.update_noteq hji] at hj
      by_cases hki : k = i
      · rw [hki, Function.update_same] at hk
        simp [isLeaderOf] at hk
        rw [hki]
        exact lU j i g2 hj (by rw [h1]; exact hk)
      · rw [Function.update_noteq hki] at hk
        exact lU j k g2 hj hk
  · intro j g2 hj
    dsimp only at hj ⊢
    by_cases hji : j = i
    · rw [hji, Function.update_same] at hj
      simp [isActiveOf] at hj
      exact aT i g2 (by rw [h1]; exact hj)
    · rw [Function.update_noteq hji] at hj
      exact aT j g2 hj
  · dsimp only
    refine Or.inr ⟨by rw [hv], ?_⟩
    rcases sS with ⟨_, hc⟩ | ⟨hsv, _⟩
    · omega
    · rw [hnone] at hsv
      simp at hsv
  · intro j hj
    dsimp only at hj ⊢
    by_cases hji : j = i
    · rw [hji, Function.update_same] at hj
      simp [inFlight] at hj
    · rw [Function.update_noteq hji] at hj
      have := inFlight_unique hinv j i hj (by rw [h1]; trivial)
      exact absurd this hji
  · intro j g2 v' hj
    dsimp only at hj
    by_cases hji : j = i
    · rw [hji, Function.update_same] at hj
      simp at hj
    · rw [Function.update_noteq hji] at hj
      exact sV j g2 v' hj
  · intro j g2 r hj
    dsimp only at hj ⊢
    by_cases hji : j = i
    · rw [hji, Function.update_same] at hj
      rcases hj with hj | hj
      · simp only [PC.deleting.injEq] at hj
        refine ⟨?_, ?_⟩
        · rw [← hj.2, hv]
        · rw [hv]
      · simp at hj
    · rw [Function.update_noteq hji] at hj
      exact ⟨(pS j g2 r hj).1, by rw [hv]⟩
  · intro j r hj
    dsimp only at hj ⊢
    by_cases hji : j = i
    · rw [hji, Function.update_same] at hj
      simp at hj
    · rw [Function.update_noteq hji] at hj
      exact ⟨(dS j r hj).1, by rw [hv]⟩
  · intro g2 hg
    dsimp only at hg ⊢
    exact ⟨(rC g2 hg).1, by rw [hv]⟩

/-- Preservation across `deleteStep`. -/
theorem inv_deleteStep (s : Sys n T) (i : Fin n) (g : Nat) (r : T × Option GoErr)
    (hinv : Inv V s) (h1 : s.pcs i = PC.deleting g r) :
    Inv V { s with pcs := Function.update s.pcs i (PC.closing g r),
                   table := none } := by
  obtain ⟨gB, tB, lU, aT, sS, lV, sV, pS, dS, rC⟩ := id hinv
  have hr := pS i g r (Or.inl h1)
  refine ⟨?_, ?_, ?_, ?_, ?_, ?_, ?_, ?_, ?_, ?_⟩
  · intro j g2 hg
    dsimp only at hg ⊢
    by_cases hji : j = i
    · rw [hji, Function.update_same] at hg
      simp [mentionsGen, isLeaderOf] at hg
      rw [← hg]
      exact gB i g (Or.inr (by rw [h1]; rfl))
    · rw [Function.update_noteq hji] at hg
      exact gB j g2 hg
  · intro g2 hg
    dsimp only at hg
    simp at hg
  · intro j k g2 hj hk
    dsimp only at hj hk
    by_cases hji : j = i
    · rw [hji, Function.update_same] at hj
      simp [isLeaderOf] at hj
      by_cases hki : k = i
      · rw [hji, hki]
      · rw [Function.update_noteq hki] at hk
        rw [hji]
        exact lU i k g2 (by rw [h1]; exact hj) hk
    · rw [Function.update_noteq hji] at hj
      by_cases hki : k = i
      · rw [hki, Function.update_same] at hk
        simp [isLeaderOf] at hk
        rw [hki]
        exact lU j i g2 hj (by rw [h1]; exact hk)
      · rw [Function.update_noteq hki] at hk
        exact lU j k g2 hj hk
  · intro j g2 hj
    dsimp only at hj ⊢
    by_cases hji : j = i
    · rw [hji, Function.update_same] at hj
      simp [isActiveOf] at hj
    · rw [Function.update_noteq hji] at hj
      have t1 := aT j g2 hj
      have t2 := aT i g (by rw [h1]; rfl)
      rw [t2] at t1
      simp only [Option.some.injEq] at t1
      exact absurd (lU j i g2 (isLeaderOf_of_isActiveOf _ _ hj)
        (by rw [h1]; exact t1)) hji
  · exact sS
  · intro j hj
    dsimp only at hj ⊢
    by_cases hji : j = i
    · rw [hji, Function.update_same] at hj
      simp [inFlight] at hj
    · rw [Function.update_noteq hji] at hj
      exact lV j hj
  · intro j g2 v' hj
    dsimp only at hj
    by_cases hji : j = i
    · rw [hji, Function.update_same] at hj
      simp at hj
    · rw [Function.update_noteq hji] at hj
      exact sV j g2 v' hj
  · intro j g2 r2 hj
    dsimp only at hj ⊢
    by_cases hji : j = i
    · rw [hji, Function.update_same] at hj
      rcases hj with hj | hj
      · simp at hj
      · simp only [PC.closing.injEq] at hj
        exact ⟨by rw [← hj.2]; exact hr.1, hr.2⟩
    · rw [Function.update_noteq hji] at hj
      exact pS j g2 r2 hj
  · intro j r2 hj
    dsimp only at hj ⊢
    by_cases hji : j = i
    · rw [hji, Function.update_same] at hj
      simp at hj
    · rw [Function.update_noteq hji] at hj
      exact dS j r2 hj
  · intro g2 hg
    dsimp only at hg ⊢
    exact rC g2 hg

/-- Preservation across `closeStep`. -/
theorem inv_closeStep (s : Sys n T) (i : Fin n) (g : Nat) (r : T × Option GoErr)
    (hinv : Inv V s) (h1 : s.pcs i = PC.closing g r) :
    Inv V { s with pcs := Function.update s.pcs i (PC.done r),
                   closed := Function.update s.closed g true,
                   recRes := Function.update s.recRes g (some r) } := by
  obtain ⟨gB, tB, lU, aT, sS, lV, sV, pS, dS, rC⟩ := id hinv
  have hr := pS i g r (Or.inr h1)
  refine ⟨?_, ?_, ?_, ?_, ?_, ?_, ?_, ?_, ?_, ?_⟩
  · intro j g2 hg
    dsimp only at hg ⊢
    by_cases hji : j = i
    · rw [hji, Function.update_same] at hg
      simp [mentionsGen, isLeaderOf] at hg
    · rw [Function.update_noteq hji] at hg
      exact gB j g2 hg
  · exact tB
  · intro j k g2 hj hk
    dsimp only at hj hk
    by_cases hji : j = i
    · rw [hji, Function.update_same] at hj
      simp [isLeaderOf] at hj
    · rw [Function.update_noteq hji] at hj
      by_cases hki : k = i
      · rw [hki, Function.update_same] at hk
        simp [isLeaderOf] at hk
      · rw [Function.update_noteq hki] at hk
        exact lU j k g2 hj hk
  · intro j g2 hj
    dsimp only at hj ⊢
    by_cases hji : j = i
    · rw [hji, Function.update_same] at hj
      simp [isActiveOf] at hj
    · rw [Function.update_noteq hji] at hj
      exact aT j g2 hj
  · exact sS
  · intro j hj
    dsimp only at hj ⊢
    by_cases hji : j = i
    · rw [hji, Function.update_same] at hj
      simp [inFlight] at hj
    · rw [Function.update_noteq hji] at hj
      exact lV j hj
  · intro j g2 v' hj
    dsimp only at hj
    by_cases hji : j = i
    · rw [hji, Function.update_same] at hj
      simp at hj
    · rw [Function.update_noteq hji] at hj
      exact sV j g2 v' hj
  · intro j g2 r2 hj
    dsimp only at hj ⊢
    by_cases hji : j = i
    · rw [hji, Function.update_same] at hj
      rcases hj with hj | hj <;> simp at hj
    · rw [Function.update_noteq hji] at hj
      exact pS j g2 r2 hj
  · intro j r2 hj
    dsimp only at hj ⊢
    by_cases hji : j = i
    · rw [hji, Function.update_same] at hj
      simp only [PC.done.injEq] at hj
      exact ⟨by rw [← hj]; exact hr.1, hr.2⟩
    · rw [Function.update_noteq hji] at hj
      exact dS j r2 hj
  · intro g2 hg
    dsimp only at hg ⊢
    by_cases hg2 : g2 = g
    · rw [hg2, Function.update_same]
      exact ⟨by rw [hr.1], hr.2⟩
    · rw [Function.update_noteq hg2] at hg
      rw [Function.update_noteq hg2]
      exact rC g2 hg

/-- Every step preserves the invariant. -/
theorem inv_step {s s' : Sys n T} (hinv : Inv V s) (hstep : Step V s s') :
    Inv V s' := by
  cases hstep with
  | createRecord i h1 h2 => exact inv_createRecord _ i hinv h1 h2
  | joinWait i g h1 h2 => exact inv_joinWait _ i g hinv h1 h2
  | waitDone i g r h1 h2 h3 => exact inv_waitDone _ i g r hinv h1 h2 h3
  | getMiss i g h1 h2 => exact inv_getMiss _ i g hinv h1 h2
  | getHit i g v h1 h2 => exact inv_getHit _ i g v hinv h1 h2
  | loadStep i g h1 => exact inv_loadStep _ i g hinv h1
  | setStep i g v h1 => exact inv_setStep _ i g v hinv h1
  | deleteStep i g r h1 => exact inv_deleteStep _ i g r hinv h1
  | closeStep i g r h1 => exact inv_closeStep _ i g r hinv h1

/-- The invariant holds in every reachable state. -/
theorem inv_reachable {s : Sys n T} (h : Reachable V s) : Inv V s := by
  induction h with
  | refl => exact inv_init
  | tail _ hstep ih => exact inv_step ih hstep

end StepInv

end Coalesce

namespace Coalesce

/-- The concrete two-goroutine execution ending in `run8` is reachable. -/
theorem run8_reachable : Reachable (7 : Nat) run8 := by
  have t1 : Step (7 : Nat) run0 run1 := Step.createRecord run0 0 rfl rfl
  have t2 : Step (7 : Nat) run1 run2 := Step.joinWait run1 1 0 rfl rfl
  have t3 : Step (7 : Nat) run2 run3 := Step.getMiss run2 0 0 rfl rfl
  have t4 : Step (7 : Nat) run3 run4 := Step.loadStep run3 0 0 rfl
  have t5 : Step (7 : Nat) run4 run5 := Step.setStep run4 0 0 7 rfl
  have t6 : Step (7 : Nat) run5 run6 := Step.deleteStep run5 0 0 (7, none) rfl
  have t7 : Step (7 : Nat) run6 run7 := Step.closeStep run6 0 0 (7, none) rfl
  have t8 : Step (7 : Nat) run7 run8 := Step.waitDone run7 1 0 (7, none) rfl rfl rfl
  exact ((((((((Relation.ReflTransGen.refl).tail t1).tail t2).tail t3).tail
    t4).tail t5).tail t6).tail t7).tail t8

end Coalesce

namespace StaleableCache

/-- Unfolding `GetWithTTL` when the underlying store succeeds. -/
theorem GetWithTTL_ok (s : StaleableCache K T) [Inhabited T] (key : K)
    (v : T) (tS : Int) (hget : s.underGet key = (v, tS, none)) :
    s.GetWithTTL key = (v, tS - s.minimumTTL, none) := by
  simp [GetWithTTL, hget]

/-- Unfolding `GetWithTTL` when the underlying store errors. -/
theorem GetWithTTL_err (s : StaleableCache K T) [Inhabited T] (key : K)
    (v : T) (tS : Int) (e : GoErr) (hget : s.underGet key = (v, tS, some e)) :
    s.GetWithTTL key = (default, 0, some e) := by
  simp [GetWithTTL, hget]

/-- Unfolding `Get` on the fresh branch. -/
theorem Get_fresh (s : StaleableCache K T) [Inhabited T] (ctx : Ctx) (key : K)
    (v : T) (tS : Int) (hm : 0 ≤ s.minimumTTL)
    (hget : s.underGet key = (v, tS, none)) (h : 0 ≤ tS - s.minimumTTL) :
    s.Get ctx key = { result := (v, none), didSyncReload := false,
                      syncEvents := [CacheEv.unregister key], bgTask := none } := by
  simp only [Get, GetWithTTL_ok s key v tS hget]
  rw [if_neg (show ¬(tS - s.minimumTTL + s.minimumTTL < 0) by omega),
      if_neg (show ¬(tS - s.minimumTTL < 0) by omega)]

/-- Unfolding `Get` on the stale branch. -/
theorem Get_stale (s : StaleableCache K T) [Inhabited T] (ctx : Ctx) (key : K)
    (v : T) (tS : Int) (hget : s.underGet key = (v, tS, none))
    (h1 : tS - s.minimumTTL < 0) (h2 : 0 ≤ tS - s.minimumTTL + s.minimumTTL) :
    s.Get ctx key =
      { result := (v, none), didSyncReload := false, syncEvents := [],
        bgTask := some (Ctx.background,
          (s.loadAndStore Ctx.background key).2 ++ [CacheEv.unregister key]) } := by
  simp only [Get, GetWithTTL_ok s key v tS hget]
  rw [if_neg (show ¬(tS - s.minimumTTL + s.minimumTTL < 0) by omega), if_pos h1]

/-- Unfolding `Get` on the expired branch. -/
theorem Get_expired (s : StaleableCache K T) [Inhabited T] (ctx : Ctx) (key : K)
    (v : T) (tS : Int) (hget : s.underGet key = (v, tS, none))
    (h : tS - s.minimumTTL + s.minimumTTL < 0) :
    s.Get ctx key =
      { result := (s.loadAndStore ctx key).1, didSyncReload := true,
        syncEvents := (s.loadAndStore ctx key).2 ++ [CacheEv.unregister key],
        bgTask := none } := by
  simp only [Get, GetWithTTL_ok s key v tS hget]
  rw [if_pos h]

/-- Unfolding `Get` when the underlying store reports not-found. -/
theorem Get_notFound (s : StaleableCache K T) [Inhabited T] (ctx : Ctx) (key : K)
    (v : T) (tS : Int) (hget : s.underGet key = (v, tS, some GoErr.notFound)) :
    s.Get ctx key =
      { result := (s.loadAndStore ctx key).1, didSyncReload := true,
        syncEvents := (s.loadAndStore ctx key).2 ++ [CacheEv.unregister key],
        bgTask := none } := by
  simp [Get, GetWithTTL_err s key v tS GoErr.notFound hget]

/-- Unfolding `Get` when the underlying store reports another error. -/
theorem Get_otherErr (s : StaleableCache K T) [Inhabited T] (ctx : Ctx) (key : K)
    (v : T) (tS : Int) (e : GoErr) (hget : s.underGet key = (v, tS, some e))
    (he : e ≠ GoErr.notFound) :
    s.Get ctx key =
      { result := (default, some e), didSyncReload := false,
        syncEvents := [CacheEv.unregister key], bgTask := none } := by
  simp only [Get, GetWithTTL_err s key v tS e hget]
  rw [if_neg he]

/-- Unfolding `loadAndStore` with no load function. -/
theorem loadAndStore_none (s : StaleableCache K T) [Inhabited T] (ctx : Ctx)
    (key : K) (h : s.loadFunc = none) :
    s.loadAndStore ctx key = ((default, none), []) := by
  simp [loadAndStore, h]

/-- With a load function, `loadAndStore` returns exactly its result. -/
theorem loadAndStore_result (s : StaleableCache K T) [Inhabited T] (ctx : Ctx)
    (key : K) (f : Ctx → K → T × Option GoErr) (hf : s.loadFunc = some f) :
    (s.loadAndStore ctx key).1 = f ctx key := by
  unfold loadAndStore
  rw [hf]
  dsimp only
  split
  · rfl
  · split
    · split <;> rfl
    · rfl

/-- Unfolding `loadAndStore` when the load function fails. -/
theorem loadAndStore_err (s : StaleableCache K T) [Inhabited T] (ctx : Ctx)
    (key : K) (f : Ctx → K → T × Option GoErr) (res : T) (e : GoErr)
    (hf : s.loadFunc = some f) (hr : f ctx key = (res, some e)) :
    s.loadAndStore ctx key = ((res, some e), [CacheEv.load res (some e)]) := by
  simp [loadAndStore, hf, hr]

/-- Unfolding `loadAndStore` when the admission predicate rejects. -/
theorem loadAndStore_reject (s : StaleableCache K T) [Inhabited T] (ctx : Ctx)
    (key : K) (f : Ctx → K → T × Option GoErr) (res : T) (p : K → T → Bool)
    (hf : s.loadFunc = some f) (hr : f ctx key = (res, none))
    (hp : s.shouldCache = some p) (hpf : p key res = false) :
    s.loadAndStore ctx key = ((res, none), [CacheEv.load res none]) := by
  simp [loadAndStore, hf, hr, hp, hpf]

/-- Unfolding `loadAndStore` when the value is stored (predicate present). -/
theorem loadAndStore_store_pred (s : StaleableCache K T) [Inhabited T] (ctx : Ctx)
    (key : K) (f : Ctx → K → T × Option GoErr) (res : T) (p : K → T → Bool)
    (hf : s.loadFunc = some f) (hr : f ctx key = (res, none))
    (hp : s.shouldCache = some p) (hpt : p key res = true) :
    s.loadAndStore ctx key = ((res, none),
      [CacheEv.load res none,
       CacheEv.setU key res (s.minimumTTL + s.refreshTTL)]) := by
  simp [loadAndStore, hf, hr, hp, hpt, Set]

/-- Unfolding `loadAndStore` when the value is stored (no predicate). -/
theorem loadAndStore_store_nopred (s : StaleableCache K T) [Inhabited T] (ctx : Ctx)
    (key : K) (f : Ctx → K → T × Option GoErr) (res : T)
    (hf : s.loadFunc = some f) (hr : f ctx key = (res, none))
    (hp : s.shouldCache = none) :
    s.loadAndStore ctx key = ((res, none),
      [CacheEv.load res none,
       CacheEv.setU key res (s.minimumTTL + s.refreshTTL)]) := by
  simp [loadAndStore, hf, hr, hp, Set]

end StaleableCache

open StaleableCache in
/-- C1: for margin `m ≥ 0` and a read where the underlying store returns a
value without error, `Get` classifies by the logical TTL `t` (stored minus
margin): `t ≥ 0` is fresh (cached value, nil error, no reload);
`-m ≤ t < 0` is stale (cached value, nil error, background refresh);
`t < -m` triggers a synchronous reload, as does a not-found report. -/
theorem claim_C1 {K T : Type} [Inhabited T] (s : StaleableCache K T) (ctx : Ctx)
    (hm : 0 ≤ s.minimumTTL) :
    (∀ key v tS, s.underGet key = (v, tS, none) →
      ((0 ≤ tS - s.minimumTTL →
          (s.Get ctx key).result = (v, none) ∧
          (s.Get ctx key).didSyncReload = false ∧ (s.Get ctx key).bgTask = none) ∧
       (-s.minimumTTL ≤ tS - s.minimumTTL → tS - s.minimumTTL < 0 →
          (s.Get ctx key).result = (v, none) ∧
          (s.Get ctx key).didSyncReload = false ∧
          (s.Get ctx key).bgTask.isSome = true) ∧
       (tS - s.minimumTTL < -s.minimumTTL →
          (s.Get ctx key).didSyncReload = true ∧
          (s.Get ctx key).bgTask = none))) ∧
    (∀ key v tS, s.underGet key = (v, tS, some GoErr.notFound) →
      (s.Get ctx key).didSyncReload = true ∧ (s.Get ctx key).bgTask = none) := by
  constructor
  · intro key v tS hget
    refine ⟨?_, ?_, ?_⟩
    · intro h
      rw [Get_fresh s ctx key v tS hm hget h]
      exact ⟨rfl, rfl, rfl⟩
    · intro ha hb
      rw [Get_stale s ctx key v tS hget hb (by omega)]
      exact ⟨rfl, rfl, rfl⟩
    · intro h
      rw [Get_expired s ctx key v tS hget (by omega)]
      exact ⟨rfl, rfl⟩
  · intro key v tS hget
    rw [Get_notFound s ctx key v tS hget]
    exact ⟨rfl, rfl⟩

/-- Witness for C1: `witCache` has margin 5; key 7 (logical TTL 2) is
fresh, key 3 (logical TTL -2) is stale with a background refresh, key -6
(logical TTL -11) and the absent key 0 reload synchronously. -/
theorem claim_C1_witness :
    (0 : Int) ≤ witCache.minimumTTL ∧
    (witCache.Get Ctx.caller 7).result = (42, none) ∧
    (witCache.Get Ctx.caller 7).bgTask = none ∧
    (witCache.Get Ctx.caller 3).result = (42, none) ∧
    (witCache.Get Ctx.caller 3).bgTask.isSome = true ∧
    (witCache.Get Ctx.caller (-6)).didSyncReload = true ∧
    (witCache.Get Ctx.caller 0).didSyncReload = true := by
  have main := claim_C1 witCache Ctx.caller (by decide)
  refine ⟨by decide, ?_, ?_, ?_, ?_, ?_, ?_⟩
  · exact ((main.1 7 42 7 rfl).1 (by decide)).1
  · exact ((main.1 7 42 7 rfl).1 (by decide)).2.2
  · exact ((main.1 3 42 3 rfl).2.1 (by decide) (by decide)).1
  · exact ((main.1 3 42 3 rfl).2.1 (by decide) (by decide)).2.2
  · exact ((main.1 (-6) 42 (-6) rfl).2.2 (by decide)).1
  · exact (main.2 0 0 0 rfl).1

open StaleableCache in
/-- C2: for every stored TTL `t` returned without error and margin
`m ≥ 0`, the wrapper's `GetWithTTL` returns the same value with logical
TTL `t - m` (possibly negative) and nil error; an underlying error is
propagated with no margin arithmetic. -/
theorem claim_C2 {K T : Type} [Inhabited T] (s : StaleableCache K T) (key : K)
    (hm : 0 ≤ s.minimumTTL) :
    (∀ v t, s.underGet key = (v, t, none) →
      s.GetWithTTL key = (v, t - s.minimumTTL, none)) ∧
    (∀ v t e, s.underGet key = (v, t, some e) →
      (s.GetWithTTL key).2.2 = some e ∧ (s.GetWithTTL key).2.1 = 0) := by
  constructor
  · intro v t h
    exact GetWithTTL_ok s key v t h
  · intro v t e h
    rw [GetWithTTL_err s key v t e h]
    exact ⟨rfl, rfl⟩

/-- Witness for C2: `witCache` has margin 5; key 3 yields logical TTL
`-2`, a negative result, and the absent key 0 propagates not-found. -/
theorem claim_C2_witness :
    (0 : Int) ≤ witCache.minimumTTL ∧
    witCache.GetWithTTL 3 = (42, -2, none) ∧
    (witCache.GetWithTTL 0).2.2 = some GoErr.notFound := by
  have h3 := (claim_C2 witCache 3 (by decide)).1 42 3 rfl
  have h0 := (claim_C2 witCache 0 (by decide)).2 0 0 GoErr.notFound rfl
  refine ⟨by decide, ?_, h0.1⟩
  rw [h3]
  decide

open StaleableCache in
/-- C3: on the stale branch the caller receives the cached value with
nil error; the refresh runs as a detached background task under
`context.Background()`, its outcome does not change the published pair,
and the coalescing record is removed only after the refresh completes
(the unregister event is last). -/
theorem claim_C3 {K T : Type} [Inhabited T] (s : StaleableCache K T) (ctx : Ctx)
    (key : K) (v : T) (tS : Int) (hget : s.underGet key = (v, tS, none))
    (h1 : tS - s.minimumTTL < 0) (h2 : 0 ≤ tS - s.minimumTTL + s.minimumTTL) :
    (s.Get ctx key).result = (v, none) ∧
    (s.Get ctx key).bgTask = some (Ctx.background,
      (s.loadAndStore Ctx.background key).2 ++ [CacheEv.unregister key]) ∧
    (∀ c evs, (s.Get ctx key).bgTask = some (c, evs) →
      c = Ctx.background ∧ evs.getLast? = some (CacheEv.unregister key)) := by
  rw [Get_stale s ctx key v tS hget h1 h2]
  refine ⟨rfl, rfl, ?_⟩
  intro c evs h
  simp only [Option.some.injEq, Prod.mk.injEq] at h
  obtain ⟨hc, hevs⟩ := h
  refine ⟨hc.symm, ?_⟩
  rw [← hevs]
  simp

/-- Witness for C3: key 3 of `witCache` is stale (logical TTL -2 within
margin 5); `Get` returns the cached 42 with nil error, and the
background task (loader context `background`) ends with `unregister`. -/
theorem claim_C3_witness :
    witCache.underGet 3 = (42, 3, none) ∧
    ((3 : Int) - witCache.minimumTTL < 0) ∧
    ((0 : Int) ≤ 3 - witCache.minimumTTL + witCache.minimumTTL) ∧
    (witCache.Get Ctx.caller 3).result = (42, none) ∧
    ([CacheEv.load (99 : Nat) none, CacheEv.setU (3 : Int) 99 8,
      CacheEv.unregister 3].getLast? = some (CacheEv.unregister 3)) := by
  have main := claim_C3 witCache Ctx.caller 3 42 3 rfl (by decide) (by decide)
  have hlist := main.2.2 Ctx.background
    [CacheEv.load (99 : Nat) none, CacheEv.setU (3 : Int) 99 8,
     CacheEv.unregister 3] (by rw [main.2.1]; rfl)
  exact ⟨rfl, by decide, by decide, main.1, hlist.2⟩

open StaleableCache in
/-- C4: the underlying not-found error is never returned from `Get`:
with a loader the caller receives the synchronous reload's result, and
with no loader the caller receives the zero value with nil error. -/
theorem claim_C4 {K T : Type} [Inhabited T] (s : StaleableCache K T) (ctx : Ctx)
    (key : K) (v0 : T) (t0 : Int)
    (hget : s.underGet key = (v0, t0, some GoErr.notFound)) :
    (s.loadFunc = none → (s.Get ctx key).result = (default, none)) ∧
    (∀ f, s.loadFunc = some f → (s.Get ctx key).result = f ctx key) := by
  rw [Get_notFound s ctx key v0 t0 hget]
  constructor
  · intro h
    rw [loadAndStore_none s ctx key h]
  · intro f hf
    exact loadAndStore_result s ctx key f hf

/-- Witness for C4: key 0 is absent in both caches; without a loader
`Get` returns `(0, nil)` (the `Nat` zero value), with the loader it
returns the loaded `(99, nil)`. -/
theorem claim_C4_witness :
    witCacheNoLoader.underGet 0 = (0, 0, some GoErr.notFound) ∧
    (witCacheNoLoader.Get Ctx.caller 0).result = (0, none) ∧
    (witCache.Get Ctx.caller 0).result = (99, none) := by
  have h1 := (claim_C4 witCacheNoLoader Ctx.caller 0 0 0 rfl).1 rfl
  have h2 := (claim_C4 witCache Ctx.caller 0 0 0 rfl).2 (fun _ _ => (99, none)) rfl
  exact ⟨rfl, h1, h2⟩

open StaleableCache in
/-- C5: the expiration forwarded to the underlying store is
`minimumTTL` plus the resolved expiration: the caller-supplied non-zero
expiration, or the configured default; in particular expiration 1s with
margin 5s forwards 6s (in nanoseconds). -/
theorem claim_C5 {K T : Type} (s : StaleableCache K T) (key : K) (v : T)
    (e : Int) (he : e ≠ 0) :
    (s.Set key v (some e)).2.2.2 = s.minimumTTL + e ∧
    (s.Set key v none).2.2.2 = s.minimumTTL + s.refreshTTL ∧
    (({ s with minimumTTL := 5000000000 } : StaleableCache K T).Set key v
      (some 1000000000)).2.2.2 = 6000000000 := by
  refine ⟨?_, ?_, ?_⟩
  · simp only [StaleableCache.Set]
    rw [if_neg he]
  · simp [StaleableCache.Set]
  · simp only [StaleableCache.Set]
    norm_num

/-- Witness for C5: `witCache` has margin 5 and default 3; `Set` with
expiration 1 forwards 6, with no expiration forwards 8. -/
theorem claim_C5_witness :
    ((1 : Int) ≠ 0) ∧
    (witCache.Set 3 42 (some 1)).2.2.2 = 6 ∧
    (witCache.Set 3 42 none).2.2.2 = 8 := by
  have main := claim_C5 witCache 3 42 1 (by decide)
  refine ⟨by decide, ?_, ?_⟩
  · rw [main.1]
    decide
  · rw [main.2.1]
    decide

open StaleableCache in
/-- C6: inside the reload procedure the underlying `Set` runs iff a
loader is configured, the load succeeds, and the admission predicate
(when configured) admits; a failed load propagates with no write, and a
rejected value is returned with no write. -/
theorem claim_C6 {K T : Type} [Inhabited T] (s : StaleableCache K T) (ctx : Ctx)
    (key : K) :
    (s.loadFunc = none →
      StaleableCache.setUCount (s.loadAndStore ctx key).2 = 0) ∧
    (∀ f res e, s.loadFunc = some f → f ctx key = (res, some e) →
      (s.loadAndStore ctx key).1 = (res, some e) ∧
      StaleableCache.setUCount (s.loadAndStore ctx key).2 = 0) ∧
    (∀ f res p, s.loadFunc = some f → f ctx key = (res, none) →
      s.shouldCache = some p → p key res = false →
      (s.loadAndStore ctx key).1 = (res, none) ∧
      StaleableCache.setUCount (s.loadAndStore ctx key).2 = 0) ∧
    (∀ f res, s.loadFunc = some f → f ctx key = (res, none) →
      (s.shouldCache = none ∨ ∃ p, s.shouldCache = some p ∧ p key res = true) →
      (s.loadAndStore ctx key).1 = (res, none) ∧
      StaleableCache.setUCount (s.loadAndStore ctx key).2 = 1) := by
  refine ⟨?_, ?_, ?_, ?_⟩
  · intro h
    rw [loadAndStore_none s ctx key h]
    rfl
  · intro f res e hf hr
    rw [loadAndStore_err s ctx key f res e hf hr]
    exact ⟨rfl, rfl⟩
  · intro f res p hf hr hp hpf
    rw [loadAndStore_reject s ctx key f res p hf hr hp hpf]
    exact ⟨rfl, rfl⟩
  · intro f res hf hr hok
    rcases hok with hp | ⟨p, hp, hpt⟩
    · rw [loadAndStore_store_nopred s ctx key f res hf hr hp]
      exact ⟨rfl, rfl⟩
    · rw [loadAndStore_store_pred s ctx key f res p hf hr hp hpt]
      exact ⟨rfl, rfl⟩

/-- Witness for C6 over the four concrete caches: no loader (no write),
failing loader (error propagated, no write), rejecting predicate (value
returned, no write), and default admission (exactly one write). -/
theorem claim_C6_witness :
    StaleableCache.setUCount (witCacheNoLoader.loadAndStore Ctx.caller 3).2 = 0 ∧
    ((witCacheFail.loadAndStore Ctx.caller 3).1 = (0, some (GoErr.other 1)) ∧
      StaleableCache.setUCount (witCacheFail.loadAndStore Ctx.caller 3).2 = 0) ∧
    ((witCachePredFalse.loadAndStore Ctx.caller 3).1 = (99, none) ∧
      StaleableCache.setUCount (witCachePredFalse.loadAndStore Ctx.caller 3).2 = 0) ∧
    ((witCache.loadAndStore Ctx.caller 3).1 = (99, none) ∧
      StaleableCache.setUCount (witCache.loadAndStore Ctx.caller 3).2 = 1) := by
  refine ⟨(claim_C6 witCacheNoLoader Ctx.caller 3).1 rfl, ?_, ?_, ?_⟩
  · exact (claim_C6 witCacheFail Ctx.caller 3).2.1 (fun _ _ => (0, some (GoErr.other 1)))
      0 (GoErr.other 1) rfl rfl
  · exact (claim_C6 witCachePredFalse Ctx.caller 3).2.2.1 (fun _ _ => (99, none))
      99 (fun _ _ => false) rfl rfl rfl rfl
  · exact (claim_C6 witCache Ctx.caller 3).2.2.2 (fun _ _ => (99, none))
      99 rfl rfl (Or.inl rfl)

open StaleableCache in
/-- C7: when the store write inside the reload procedure fails, the
write error is discarded: the reload result, and hence `Get`'s caller,
still receive the successfully loaded value with nil error. -/
theorem claim_C7 {K T : Type} [Inhabited T] (s : StaleableCache K T) (ctx : Ctx)
    (key : K) (f : Ctx → K → T × Option GoErr) (res : T) (werr : GoErr)
    (v0 : T) (t0 : Int)
    (hf : s.loadFunc = some f) (hr : f ctx key = (res, none))
    (hp : s.shouldCache = none)
    (hw : ∀ exp, s.underSetErr key res exp = some werr)
    (hget : s.underGet key = (v0, t0, some GoErr.notFound)) :
    (s.loadAndStore ctx key).1 = (res, none) ∧
    (s.Get ctx key).result = (res, none) := by
  have h1 : (s.loadAndStore ctx key).1 = (res, none) := by
    rw [loadAndStore_result s ctx key f hf, hr]
  refine ⟨h1, ?_⟩
  rw [Get_notFound s ctx key v0 t0 hget]
  exact h1

/-- Witness for C7: `witCacheSetErr` fails every store write, yet `Get`
on the absent key 0 still returns the loaded `(99, nil)`. -/
theorem claim_C7_witness :
    witCacheSetErr.underSetErr 0 99 8 = some (GoErr.other 2) ∧
    (witCacheSetErr.loadAndStore Ctx.caller 0).1 = (99, none) ∧
    (witCacheSetErr.Get Ctx.caller 0).result = (99, none) := by
  have main := claim_C7 witCacheSetErr Ctx.caller 0 (fun _ _ => (99, none)) 99
    (GoErr.other 2) 0 0 rfl rfl rfl (fun _ => rfl) rfl
  exact ⟨rfl, main.1, main.2⟩

/-- C9: a caller-supplied expiration of exactly 0 is indistinguishable
from supplying no expiration option: both resolve to the configured
default, so the underlying store receives `minimumTTL + refreshTTL`. -/
theorem claim_C9 {K T : Type} (s : StaleableCache K T) (key : K) (v : T) :
    s.Set key v (some 0) = s.Set key v none ∧
    (s.Set key v (some 0)).2.2.2 = s.minimumTTL + s.refreshTTL := by
  constructor <;> simp [StaleableCache.Set]

open StaleableCache in
/-- C10: whenever the underlying `GetWithTTL` errors, the wrapper
returns exactly the zero value, duration 0, and that error — never a
partial value or a margin-adjusted TTL. -/
theorem claim_C10 {K T : Type} [Inhabited T] (s : StaleableCache K T) (key : K)
    (v : T) (t : Int) (e : GoErr) (hget : s.underGet key = (v, t, some e)) :
    s.GetWithTTL key = (default, 0, some e) :=
  GetWithTTL_err s key v t e hget

/-- Witness for C10: the absent key 0 of `witCache` comes back as the
zero value, TTL 0 and the not-found error, although the underlying
store also reported value 0 and TTL 0 alongside the error. -/
theorem claim_C10_witness :
    witCache.underGet 0 = (0, 0, some GoErr.notFound) ∧
    witCache.GetWithTTL 0 = (0, 0, some GoErr.notFound) := by
  exact ⟨rfl, claim_C10 witCache 0 0 0 GoErr.notFound rfl⟩

/-- C8: in the interleaving model of `Get`'s coalescing protocol
(absent key, loader returning `V`), in every reachable state at most
one reload is in flight; every finished goroutine returns `(V, nil)`;
and when all goroutines have finished, the underlying store received
exactly one `Set`. -/
theorem claim_C8 {n : Nat} {T : Type} (V : T) (s : Coalesce.Sys n T)
    (h : Coalesce.Reachable V s) :
    (∀ i j : Fin n, Coalesce.inFlight (s.pcs i) → Coalesce.inFlight (s.pcs j) →
      i = j) ∧
    (∀ (i : Fin n) r, s.pcs i = Coalesce.PC.done r → r = (V, none)) ∧
    ((∀ i : Fin n, ∃ r, s.pcs i = Coalesce.PC.done r) → 0 < n →
      s.setCount = 1) := by
  have hinv := Coalesce.StepInv.inv_reachable h
  refine ⟨Coalesce.StepInv.inFlight_unique hinv,
    fun i r hr => (hinv.doneState i r hr).1, ?_⟩
  intro hall hn
  obtain ⟨r, hr⟩ := hall ⟨0, hn⟩
  have hsv := (hinv.doneState _ r hr).2
  rcases hinv.storeState with ⟨h1, _⟩ | ⟨_, h2⟩
  · rw [h1] at hsv
    simp at hsv
  · exact h2

/-- Witness for C8: in the concrete reachable final state `run8`, both
goroutines returned `(7, nil)` and the store received exactly one
`Set`. -/
theorem claim_C8_witness :
    Coalesce.run8.pcs 0 = Coalesce.PC.done (7, none) ∧
    Coalesce.run8.pcs 1 = Coalesce.PC.done (7, none) ∧
    Coalesce.run8.setCount = 1 := by
  have main := claim_C8 7 Coalesce.run8 Coalesce.run8_reachable
  refine ⟨rfl, rfl, main.2.2 ?_ (by norm_num)⟩
  intro i
  fin_cases i
  · exact ⟨(7, none), rfl⟩
  · exact ⟨(7, none), rfl⟩
